import Mathlib

/-!
Verification of the contact-book core of `task_01_addressbook_state.py`:
field validators (Name, Phone, Birthday), Record phone/birthday operations,
the AddressBook store, and the upcoming-birthdays query.

Dates are modelled as proleptic-Gregorian triples following CPython's
`datetime.date`: `toOrdinal` is `_ymd2ord` (ordinal 1 = 0001-01-01),
`weekday` is `(toordinal() + 6) % 7`, and comparison is lexicographic on
(year, month, day) exactly as `date._cmp`.  Adding a `timedelta` of `n`
days is modelled by iterating the calendar successor function `nextDay`,
which agrees with CPython's ordinal-based addition (see `toOrdinal_nextDay`).
Errors raised as `ValueError` are modelled as `RecError`: the validator
messages as `.validation`, the record-level "birthday already set" rule as
`.domain`, following the spec's error taxonomy.
-/

namespace ABook

/-- A calendar date, as CPython's `datetime.date` triple. -/
structure Date where
  year : Nat
  month : Nat
  day : Nat
deriving DecidableEq

/-- CPython `datetime._is_leap`. -/
def isLeapYear (y : Nat) : Bool :=
  y % 4 == 0 && (y % 100 != 0 || y % 400 == 0)

/-- CPython `datetime._days_in_month` (month assumed in 1..12). -/
def daysInMonth (y m : Nat) : Nat :=
  if m == 2 then (if isLeapYear y then 29 else 28)
  else if m == 4 || m == 6 || m == 9 || m == 11 then 30
  else 31

/-- CPython `datetime._days_before_month`: days in year `y` preceding month `m`. -/
def daysBeforeMonth (y : Nat) : Nat → Nat
  | 0 => 0
  | 1 => 0
  | m + 2 => daysBeforeMonth y (m + 1) + daysInMonth y (m + 1)

/-- CPython `datetime._days_before_year`: days before January 1 of year `y`. -/
def daysBeforeYear (y : Nat) : Nat :=
  365 * (y - 1) + (y - 1) / 4 - (y - 1) / 100 + (y - 1) / 400

/-- CPython `datetime._ymd2ord`: day 1 is 0001-01-01. -/
def toOrdinal (dt : Date) : Nat :=
  daysBeforeYear dt.year + daysBeforeMonth dt.year dt.month + dt.day

/-- CPython `date.weekday`: `(toordinal() + 6) % 7`, Monday = 0. -/
def Date.weekday (dt : Date) : Nat :=
  (toOrdinal dt + 6) % 7

/-- The argument checks performed by the `date(...)` constructor
(`datetime._check_date_fields`): `MINYEAR <= y <= MAXYEAR`, `1 <= m <= 12`,
`1 <= d <= days_in_month`. -/
def validDate (y m d : Nat) : Bool :=
  1 ≤ y && y ≤ 9999 && 1 ≤ m && m ≤ 12 && 1 ≤ d && d ≤ daysInMonth y m

/-- `date(y, m, d)`: `none` models the `ValueError` raised on invalid fields. -/
def mkDate (y m d : Nat) : Option Date :=
  if validDate y m d then some ⟨y, m, d⟩ else none

/-- CPython `date.__lt__` (`_cmp`): lexicographic on (year, month, day). -/
def dateLt (a b : Date) : Bool :=
  a.year < b.year ||
    (a.year == b.year &&
      (a.month < b.month || (a.month == b.month && a.day < b.day)))

/-- CPython `date.__le__`: lexicographic on (year, month, day). -/
def dateLE (a b : Date) : Bool :=
  a.year < b.year ||
    (a.year == b.year &&
      (a.month < b.month || (a.month == b.month && a.day ≤ b.day)))

/-- `(a - b).days` for dates: difference of ordinals, as `timedelta` days. -/
def dateSub (a b : Date) : Int :=
  (toOrdinal a : Int) - (toOrdinal b : Int)

/-- The calendar successor of a date. -/
def nextDay (dt : Date) : Date :=
  if dt.day < daysInMonth dt.year dt.month then ⟨dt.year, dt.month, dt.day + 1⟩
  else if dt.month < 12 then ⟨dt.year, dt.month + 1, 1⟩
  else ⟨dt.year + 1, 1, 1⟩

/-- `dt + timedelta(days=n)`: iterated calendar successor, agreeing with
CPython's `fromordinal(toordinal() + n)` on valid dates. -/
def addDays (dt : Date) : Nat → Date
  | 0 => dt
  | n + 1 => addDays (nextDay dt) n

/-- `0123456789`-only test, as `re` digit class on ASCII input. -/
def isDigitChar (c : Char) : Bool :=
  '0' ≤ c && c ≤ '9'

/-- `re.sub(r"\D", "", s)`: keep only the decimal digits. -/
def stripNonDigits (s : String) : String :=
  String.mk (s.toList.filter isDigitChar)

/-- Python `str.strip()` on a character list: drop leading and trailing
whitespace. -/
def stripChars (cs : List Char) : List Char :=
  ((cs.dropWhile Char.isWhitespace).reverse.dropWhile Char.isWhitespace).reverse

/-- Split a character list on the literal `.` separators of `DD.MM.YYYY`. -/
def splitDots : List Char → List (List Char)
  | [] => [[]]
  | c :: rest =>
    if c = '.' then [] :: splitDots rest
    else
      match splitDots rest with
      | part :: parts => (c :: part) :: parts
      | [] => [[c]]

/-- Numeric value of a nonempty all-digit character list. -/
def digitsVal? (cs : List Char) : Option Nat :=
  if cs.isEmpty || !cs.all isDigitChar then none
  else some (cs.foldl (fun acc c => acc * 10 + (c.toNat - '0'.toNat)) 0)

/-- The optional space padding accepted by the `strptime` `%d` field
(regex alternative ` [1-9]`): a leading space before a single digit. -/
def spacePadAdjust (cs : List Char) : List Char :=
  match cs with
  | [c1, c2] => if c1 = ' ' then [c2] else [c1, c2]
  | _ => cs

/-- `strptime` `%d` field: one or two digits valued 1..31, a single digit
optionally space-padded (`_strptime` regex `3[01]|[12]\d|0[1-9]|[1-9]| [1-9]`). -/
def parseDayField (cs : List Char) : Option Nat :=
  match digitsVal? (spacePadAdjust cs) with
  | some v => if (spacePadAdjust cs).length ≤ 2 && 1 ≤ v && v ≤ 31 then some v
              else none
  | none => none

/-- `strptime` `%m` field: one or two digits valued 1..12
(`_strptime` regex `1[0-2]|0[1-9]|[1-9]`). -/
def parseMonthField (cs : List Char) : Option Nat :=
  match digitsVal? cs with
  | some v => if cs.length ≤ 2 && 1 ≤ v && v ≤ 12 then some v else none
  | none => none

/-- `strptime` `%Y` field: exactly four digits (`_strptime` regex `\d\d\d\d`). -/
def parseYearField (cs : List Char) : Option Nat :=
  match digitsVal? cs with
  | some v => if cs.length == 4 then some v else none
  | none => none

/-- `datetime.strptime(s, "%d.%m.%Y").date()`: the three dot-separated
fields, then the full calendar check done by constructing the date. -/
def parseDMYChars (cs : List Char) : Option Date :=
  match splitDots cs with
  | [ds, ms, ys] =>
    match parseDayField ds, parseMonthField ms, parseYearField ys with
    | some d, some m, some y => mkDate y m d
    | _, _, _ => none
  | _ => none

/-- `Birthday._parse_birthday` on a string: `value.strip()` then strptime. -/
def parseBirthday (value : String) : Option Date :=
  parseDMYChars (stripChars value.toList)

/-- Zero-padded 2-digit decimal rendering, as `strftime` `%d` / `%m`. -/
def pad2Chars (n : Nat) : List Char :=
  [Nat.digitChar (n / 10 % 10), Nat.digitChar (n % 10)]

/-- Zero-padded 4-digit decimal rendering, as `strftime` `%Y`. -/
def pad4Chars (n : Nat) : List Char :=
  [Nat.digitChar (n / 1000 % 10), Nat.digitChar (n / 100 % 10),
   Nat.digitChar (n / 10 % 10), Nat.digitChar (n % 10)]

/-- The character list of a `DD.MM.YYYY` string with the given numeric
components; every canonical `DD.MM.YYYY` string is of this form. -/
def dmyChars (dd mm yyyy : Nat) : List Char :=
  pad2Chars dd ++ '.' :: (pad2Chars mm ++ '.' :: pad4Chars yyyy)

/-- `strftime("%d.%m.%Y")` character list. -/
def renderDateChars (dt : Date) : List Char :=
  dmyChars dt.day dt.month dt.year

/-- `Birthday.__str__`: `self.value.strftime("%d.%m.%Y")`. -/
def renderDate (dt : Date) : String :=
  String.mk (renderDateChars dt)

/-- Typed errors, per the spec taxonomy: Python raises `ValueError` in both
cases; validator failures are `validation`, the record-level
"birthday already set" rule is `domain`. -/
inductive RecError where
  | validation (msg : String)
  | domain (msg : String)
deriving DecidableEq

/-- `Name.__init__`: strip, reject empty. -/
def mkName (raw : String) : Except RecError String :=
  let v := String.mk (stripChars raw.toList)
  if v = "" then .error (.validation "Name cannot be empty")
  else .ok v

/-- `Phone.__init__`: strip non-digits, require exactly 10 digits; the
stored value is the digit string. -/
def mkPhone (raw : String) : Except RecError String :=
  let digits := stripNonDigits raw
  if digits.length = 10 then .ok digits
  else .error (.validation "Phone must contain exactly 10 digits")

/-- `Birthday.__init__` on a string argument (the only way the CLI builds
one): parse as strict `DD.MM.YYYY`, reject dates after `today`. -/
def mkBirthday (today : Date) (raw : String) : Except RecError Date :=
  match parseBirthday raw with
  | none => .error (.validation "Invalid date format. Use DD.MM.YYYY")
  | some d =>
    if dateLt today d then .error (.validation "Birthday cannot be in the future")
    else .ok d

/-- One contact card: validated name, digit-string phones, optional birthday. -/
structure Record where
  name : String
  phones : List String
  birthday : Option Date
deriving DecidableEq

/-- `Record.__init__`. -/
def mkRecord (name : String) : Except RecError Record :=
  (mkName name).map fun n => ⟨n, [], none⟩

/-- `Record.add_phone`: validate, append unless an equal digit string is
already present. -/
def Record.add_phone (r : Record) (phone : String) : Except RecError Record :=
  (mkPhone phone).map fun p =>
    if r.phones.any (fun existing => existing = p) then r
    else { r with phones := r.phones ++ [p] }

/-- `Record.find_phone`: normalize to digits, return the first match. -/
def Record.find_phone (r : Record) (phone : String) : Option String :=
  let digits := stripNonDigits phone
  r.phones.find? (fun p => p = digits)

/-- `Record.remove_phone`: remove the first match, report whether found. -/
def Record.remove_phone (r : Record) (phone : String) : Bool × Record :=
  match r.find_phone phone with
  | some target => (true, { r with phones := r.phones.erase target })
  | none => (false, r)

/-- `Record.edit_phone`: validate the new phone first; at the first index
holding the old digit string, pop it when the new digit string occurs
anywhere in the list, else overwrite in place. -/
def Record.edit_phone (r : Record) (phone_old phone_new : String) :
    Except RecError (Bool × Record) :=
  let old_digits := stripNonDigits phone_old
  (mkPhone phone_new).map fun new_p =>
    match r.phones.findIdx? (fun p => p = old_digits) with
    | some i =>
      if r.phones.any (fun x => x = new_p) then
        (true, { r with phones := r.phones.eraseIdx i })
      else
        (true, { r with phones := r.phones.set i new_p })
    | none => (false, r)

/-- `Record.add_birthday` (string argument): refuse when already set,
else validate via `Birthday` and store. -/
def Record.add_birthday (today : Date) (r : Record) (raw : String) :
    Except RecError Record :=
  match r.birthday with
  | some _ => .error (.domain "Birthday is already set for this contact")
  | none => (mkBirthday today raw).map fun d => { r with birthday := some d }

/-- The `AddressBook.data` dict: an insertion-ordered association list. -/
def Book := List (String × Record)

/-- Python dict assignment `data[k] = v`: update in place when the key is
present (keeping its position), otherwise append at the end. -/
def dictInsert : List (String × Record) → String → Record → List (String × Record)
  | [], k, v => [(k, v)]
  | (k', v') :: rest, k, v =>
    if k' = k then (k', v) :: rest
    else (k', v') :: dictInsert rest k v

/-- Python `del data[k]` on a present key: drop that entry. -/
def dictRemove : List (String × Record) → String → List (String × Record)
  | [], _ => []
  | (k', v') :: rest, k =>
    if k' = k then rest else (k', v') :: dictRemove rest k

/-- `AddressBook.add_record`: `self.data[record.name.value] = record`. -/
def add_record (book : List (String × Record)) (r : Record) :
    List (String × Record) :=
  dictInsert book r.name r

/-- `AddressBook.find`: `self.data.get(name)`. -/
def findRecord (book : List (String × Record)) (name : String) : Option Record :=
  (book.find? (fun p => p.1 = name)).map (·.2)

/-- `AddressBook.delete`: delete if present, report whether removal happened. -/
def deleteRecord (book : List (String × Record)) (name : String) :
    Bool × List (String × Record) :=
  if book.any (fun p => p.1 = name) then (true, dictRemove book name)
  else (false, book)

/-- One row of the upcoming-birthdays result; the congratulation date is
kept as a date and rendered with `renderDate` in the final output (the
source renders with `strftime("%d.%m.%Y")` and its sort key parses that
string back with `strptime`, which round-trips on these dates). -/
structure UBEntry where
  name : String
  congratulation_date : Date
deriving DecidableEq

/-- The weekend shift of `get_upcoming_birthdays`: `congrats += timedelta(
days=(7 - congrats.weekday()))` when `weekday() >= 5`. -/
def shiftWeekend (d : Date) : Date :=
  if 5 ≤ d.weekday then addDays d (7 - d.weekday) else d

/-- The per-record body of `get_upcoming_birthdays`' loop.  Outer `none`
models the uncaught exception from `date(...)` construction; `some none`
is a record skipped (no birthday, or outside the 7-day window). -/
def upcomingForRecord (today : Date) (r : Record) : Option (Option UBEntry) :=
  match r.birthday with
  | none => some none
  | some bday =>
    match mkDate today.year bday.month bday.day with
    | none => none
    | some c0 =>
      match (if dateLt c0 today then mkDate (today.year + 1) bday.month bday.day
             else some c0) with
      | none => none
      | some candidate =>
        if 0 ≤ dateSub candidate today ∧ dateSub candidate today < 7 then
          some (some ⟨r.name, shiftWeekend candidate⟩)
        else some none

/-- The collection loop of `get_upcoming_birthdays`, in store iteration
order; `none` when any record's date construction raises. -/
def collectUpcoming (today : Date) :
    List (String × Record) → Option (List UBEntry)
  | [] => some []
  | (_, r) :: rest =>
    match upcomingForRecord today r with
    | none => none
    | some o =>
      match collectUpcoming today rest with
      | none => none
      | some l => some (o.toList ++ l)

/-- The sort comparison of `get_upcoming_birthdays`: ascending by
congratulation date. -/
def ubLE (a b : UBEntry) : Bool :=
  dateLE a.congratulation_date b.congratulation_date

/-- The sort order as a decidable relation, for `List.insertionSort`. -/
def ubRel (a b : UBEntry) : Prop :=
  ubLE a b = true

instance : DecidableRel ubRel :=
  fun a b => inferInstanceAs (Decidable (ubLE a b = true))

/-- `AddressBook.get_upcoming_birthdays` with the evaluation date made a
parameter; `none` models the query raising on date construction.  Python's
`sorted` is a stable ascending sort, modelled by the (stable)
`List.insertionSort`. -/
def get_upcoming_birthdays (today : Date)
    (book : List (String × Record)) : Option (List UBEntry) :=
  (collectUpcoming today book).map (fun l => l.insertionSort ubRel)

/-- The rendered rows `{"name": ..., "congratulation_date": "DD.MM.YYYY"}`. -/
def upcomingOutput (today : Date) (book : List (String × Record)) :
    Option (List (String × String)) :=
  (get_upcoming_birthdays today book).map
    (List.map fun e => (e.name, renderDate e.congratulation_date))

/-- Record states reachable from a fresh `Record` by the phone and birthday
operations (`find_phone` is read-only; a failed operation leaves the record
as it was, which the `Except`-valued operations capture by returning no
record). -/
inductive RecordReachable : Record → Prop where
  | fresh (name r) : mkRecord name = .ok r → RecordReachable r
  | addPhone (r p r') : RecordReachable r → r.add_phone p = .ok r' →
      RecordReachable r'
  | removePhone (r p b r') : RecordReachable r → r.remove_phone p = (b, r') →
      RecordReachable r'
  | editPhone (r old new b r') : RecordReachable r →
      r.edit_phone old new = .ok (b, r') → RecordReachable r'
  | addBirthday (today r raw r') : RecordReachable r →
      r.add_birthday today raw = .ok r' → RecordReachable r'

/-- Store states reachable from an empty `AddressBook` by upsert and delete
of reachable records. -/
inductive BookReachable : List (String × Record) → Prop where
  | nil : BookReachable []
  | add (book r) : BookReachable book → RecordReachable r →
      BookReachable (add_record book r)
  | del (book name) : BookReachable book →
      BookReachable (deleteRecord book name).2

/-- A digit string of exactly 10 decimal digits. -/
def validPhone (p : String) : Prop :=
  p.length = 10 ∧ p.toList.all isDigitChar = true

/-- Field bounds of a calendar date (no upper year bound: only what the
ordinal arithmetic lemmas need). -/
def dateOK (dt : Date) : Prop :=
  1 ≤ dt.year ∧ 1 ≤ dt.month ∧ dt.month ≤ 12 ∧ 1 ≤ dt.day ∧
    dt.day ≤ daysInMonth dt.year dt.month

end ABook

namespace ABook

/-! ### Association-list (Python dict) lemmas -/

theorem mem_dictInsert {book : List (String × Record)} {k : String} {v : Record}
    {p : String × Record} (h : p ∈ dictInsert book k v) : p ∈ book ∨ p = (k, v) := by
  induction book with
  | nil => simpa [dictInsert] using h
  | cons q rest ih =>
    obtain ⟨k', v'⟩ := q
    by_cases hk : k' = k
    · subst hk
      simp only [dictInsert, if_pos, List.mem_cons] at h
      rcases h with h | h
      · right; exact h
      · left; exact List.mem_cons_of_mem _ h
    · simp only [dictInsert, if_neg hk, List.mem_cons] at h
      rcases h with h | h
      · left; simp [h]
      · rcases ih h with h' | h'
        · left; exact List.mem_cons_of_mem _ h'
        · right; exact h'

theorem keys_dictInsert (book : List (String × Record)) (k : String) (v : Record) :
    (dictInsert book k v).map Prod.fst =
      if k ∈ book.map Prod.fst then book.map Prod.fst
      else book.map Prod.fst ++ [k] := by
  induction book with
  | nil => simp [dictInsert]
  | cons q rest ih =>
    obtain ⟨k', v'⟩ := q
    by_cases hk : k' = k
    · subst hk
      simp [dictInsert]
    · simp only [dictInsert, if_neg hk, List.map_cons]
      by_cases hmem : k ∈ rest.map Prod.fst
      · simp [ih, hmem, Ne.symm hk]
      · simp [ih, hmem, Ne.symm hk]

theorem dictRemove_sublist (book : List (String × Record)) (k : String) :
    List.Sublist (dictRemove book k) book := by
  induction book with
  | nil => simp [dictRemove]
  | cons q rest ih =>
    obtain ⟨k', v'⟩ := q
    by_cases hk : k' = k
    · simp [dictRemove, hk]
    · simpa [dictRemove, hk] using ih.cons₂ (k', v')

theorem map_keep_of_no_key {book : List (String × Record)} {k : String} {v : Record}
    (h : ∀ p ∈ book, p.1 ≠ k) :
    book.map (fun p => if p.1 = k then (p.1, v) else p) = book := by
  have : book.map (fun p => if p.1 = k then (p.1, v) else p) = book.map id :=
    List.map_congr_left (fun p hp => by simp [h p hp])
  simpa using this

theorem dictInsert_replace (book : List (String × Record)) (k : String) (v : Record)
    (hnd : (book.map Prod.fst).Nodup) (hk : ∃ p ∈ book, p.1 = k) :
    dictInsert book k v = book.map (fun p => if p.1 = k then (p.1, v) else p) := by
  induction book with
  | nil => simp at hk
  | cons q rest ih =>
    obtain ⟨k', v'⟩ := q
    simp only [List.map_cons, List.nodup_cons] at hnd
    by_cases hkk : k' = k
    · subst hkk
      have hrest : ∀ p ∈ rest, p.1 ≠ k' := by
        intro p hp hpk
        exact hnd.1 (hpk ▸ List.mem_map_of_mem Prod.fst hp)
      simp [dictInsert, map_keep_of_no_key hrest]
    · have hk' : ∃ p ∈ rest, p.1 = k := by
        rcases hk with ⟨p, hp, hpk⟩
        rcases List.mem_cons.mp hp with h | h
        · rw [h] at hpk; exact absurd hpk hkk
        · exact ⟨p, h, hpk⟩
      simp [dictInsert, hkk, ih hnd.2 hk']

theorem bookReachable_inv (book : List (String × Record)) (h : BookReachable book) :
    (∀ p ∈ book, p.1 = p.2.name) ∧ (book.map Prod.fst).Nodup := by
  induction h with
  | nil => simp
  | add book r _ _ ih =>
    constructor
    · intro p hp
      rcases mem_dictInsert hp with h' | h'
      · exact ih.1 p h'
      · simp [h']
    · rw [add_record, keys_dictInsert]
      by_cases hmem : r.name ∈ book.map Prod.fst
      · simpa [hmem] using ih.2
      · simp only [if_neg hmem]
        have hdisj : List.Disjoint (book.map Prod.fst) [r.name] := by
          intro x hx hx'
          simp only [List.mem_singleton] at hx'
          subst hx'
          exact hmem hx
        exact ih.2.append (List.nodup_singleton _) hdisj
  | del book name _ ih =>
    cases hany : book.any (fun p => p.1 = name) with
    | true =>
      simp only [deleteRecord, hany, if_pos]
      refine ⟨fun p hp => ih.1 p ((dictRemove_sublist book name).subset hp), ?_⟩
      exact ih.2.sublist ((dictRemove_sublist book name).map Prod.fst)
    | false => simpa [deleteRecord, hany] using ih

/-- C7: after every sequence of upsert/delete operations, every key of the
store equals the name of the Record it maps to (and keys are unique), and
upserting a Record whose name key is already present replaces exactly that
entry, leaving all other entries unchanged. -/
theorem C7_store_keys (book : List (String × Record)) (h : BookReachable book) :
    (∀ p ∈ book, p.1 = p.2.name) ∧
    (book.map Prod.fst).Nodup ∧
    (∀ r : Record, (∃ p ∈ book, p.1 = r.name) →
      add_record book r =
        book.map (fun p => if p.1 = r.name then (p.1, r) else p)) := by
  obtain ⟨h1, h2⟩ := bookReachable_inv book h
  exact ⟨h1, h2, fun r hr => dictInsert_replace book r.name r h2 hr⟩

/-- Witness for C7 at a concrete reachable two-record store. -/
theorem C7_witness :
    (∀ p ∈ [("John", (⟨"John", [], none⟩ : Record))], p.1 = p.2.name) ∧
    ([("John", (⟨"John", [], none⟩ : Record))].map Prod.fst).Nodup ∧
    (∀ r : Record, (∃ p ∈ [("John", (⟨"John", [], none⟩ : Record))], p.1 = r.name) →
      add_record [("John", (⟨"John", [], none⟩ : Record))] r =
        [("John", (⟨"John", [], none⟩ : Record))].map
          (fun p => if p.1 = r.name then (p.1, r) else p)) :=
  C7_store_keys _ (BookReachable.add [] ⟨"John", [], none⟩ BookReachable.nil
    (RecordReachable.fresh "John" _ rfl))

/-- C5: a second `add_birthday` on a Record fails with the domain error and
changes nothing; on a Record without a birthday the argument is validated
via `Birthday`, errors propagate with nothing stored, and the validated
date is stored on success. -/
theorem C5_add_birthday (today : Date) (r : Record) (raw : String) :
    (∀ b, r.birthday = some b →
        r.add_birthday today raw =
          .error (.domain "Birthday is already set for this contact")) ∧
    (r.birthday = none →
        (∀ e, mkBirthday today raw = .error e →
            r.add_birthday today raw = .error e) ∧
        (∀ d, mkBirthday today raw = .ok d →
            r.add_birthday today raw = .ok { r with birthday := some d })) := by
  refine ⟨fun b hb => ?_, fun hb => ⟨fun e he => ?_, fun d hd => ?_⟩⟩
  · simp [Record.add_birthday, hb]
  · simp [Record.add_birthday, hb, he, Except.map]
  · simp [Record.add_birthday, hb, hd, Except.map]

/-- Witness for C5: `add_birthday` on a record whose birthday is already
set fails with the domain error. -/
theorem C5_witness :
    Record.add_birthday ⟨2024, 6, 10⟩ ⟨"John", [], some ⟨1992, 8, 15⟩⟩ "01.01.2000" =
      .error (.domain "Birthday is already set for this contact") :=
  (C5_add_birthday ⟨2024, 6, 10⟩ ⟨"John", [], some ⟨1992, 8, 15⟩⟩ "01.01.2000").1
    ⟨1992, 8, 15⟩ rfl

/-- C6: a stored February 29 birthday makes the upcoming-birthdays query
fail on date construction when this year's occurrence is built in a
non-leap year; no skip/clamp policy handles it.  The birthday itself is
storable (2024 is a leap year and the date is in the past). -/
theorem C6_feb29_unhandled :
    Record.add_birthday ⟨2025, 1, 15⟩ ⟨"Ann", [], none⟩ "29.02.2024" =
      .ok ⟨"Ann", [], some ⟨2024, 2, 29⟩⟩ ∧
    get_upcoming_birthdays ⟨2025, 1, 15⟩
      [("Ann", ⟨"Ann", [], some ⟨2024, 2, 29⟩⟩)] = none :=
  ⟨rfl, rfl⟩

end ABook

namespace ABook

/-! ### Phone-list lemmas -/

theorem mkPhone_ok {raw p : String} (h : mkPhone raw = .ok p) : validPhone p := by
  rw [mkPhone] at h
  split at h
  · cases h
    rename_i hlen
    refine ⟨hlen, ?_⟩
    rw [List.all_eq_true]
    intro c hc
    exact (List.mem_filter.mp hc).2
  · cases h

theorem nodup_set {α : Type} {l : List α} {i : Nat} {a : α}
    (h : l.Nodup) (ha : a ∉ l) : (l.set i a).Nodup := by
  induction l generalizing i with
  | nil => simp
  | cons x xs ih =>
    rw [List.nodup_cons] at h
    cases i with
    | zero =>
      rw [List.set_cons_zero, List.nodup_cons]
      exact ⟨fun hax => ha (List.mem_cons_of_mem _ hax), h.2⟩
    | succ n =>
      rw [List.set_cons_succ, List.nodup_cons]
      refine ⟨fun hx => ?_, ih h.2 (fun hax => ha (List.mem_cons_of_mem _ hax))⟩
      rcases List.mem_or_eq_of_mem_set hx with h' | h'
      · exact h.1 h'
      · subst h'
        exact ha (List.mem_cons_self _ _)

/-- C4: after any sequence of phone/birthday operations on a freshly
created Record, every stored phone is a string of exactly 10 decimal
digits and no two stored phones are equal. -/
theorem C4_phone_invariants (r : Record) (h : RecordReachable r) :
    (∀ p ∈ r.phones, validPhone p) ∧ r.phones.Nodup := by
  induction h with
  | fresh name r hr =>
    cases hname : mkName name with
    | error e => rw [mkRecord, hname] at hr; simp [Except.map] at hr
    | ok n =>
      rw [mkRecord, hname] at hr
      simp only [Except.map] at hr
      cases hr
      simp
  | addPhone r p r' _ hop ih =>
    cases hp : mkPhone p with
    | error e => rw [Record.add_phone, hp] at hop; simp [Except.map] at hop
    | ok q =>
      rw [Record.add_phone, hp] at hop
      simp only [Except.map, Except.ok.injEq] at hop
      split at hop
      · cases hop; exact ih
      · rename_i hany
        cases hop
        have hq : q ∉ r.phones := by
          intro hmem
          exact hany (by rw [List.any_eq_true]; exact ⟨q, hmem, by simp⟩)
        constructor
        · intro x hx
          rcases List.mem_append.mp hx with hx | hx
          · exact ih.1 x hx
          · rw [List.mem_singleton] at hx
            subst hx
            exact mkPhone_ok hp
        · refine ih.2.append (List.nodup_singleton _) ?_
          intro x hx hx'
          rw [List.mem_singleton] at hx'
          subst hx'
          exact hq hx
  | removePhone r p b r' _ hop ih =>
    rw [Record.remove_phone] at hop
    cases hfind : r.find_phone p with
    | some t =>
      rw [hfind] at hop
      cases hop
      refine ⟨fun x hx => ih.1 x ((r.phones.erase_sublist t).subset hx), ?_⟩
      exact ih.2.sublist (r.phones.erase_sublist t)
    | none =>
      rw [hfind] at hop
      cases hop
      exact ih
  | editPhone r old new b r' _ hop ih =>
    cases hp : mkPhone new with
    | error e => rw [Record.edit_phone, hp] at hop; simp [Except.map] at hop
    | ok q =>
      rw [Record.edit_phone, hp] at hop
      simp only [Except.map, Except.ok.injEq] at hop
      cases hfind : r.phones.findIdx? (fun x => x = stripNonDigits old) with
      | some i =>
        simp only [hfind] at hop
        by_cases hany : r.phones.any (fun x => x = q) = true
        · rw [if_pos hany] at hop
          cases hop
          refine ⟨fun x hx => ih.1 x ((r.phones.eraseIdx_sublist i).subset hx), ?_⟩
          exact ih.2.sublist (r.phones.eraseIdx_sublist i)
        · rw [if_neg hany] at hop
          cases hop
          have hq : q ∉ r.phones := by
            intro hmem
            exact hany (by rw [List.any_eq_true]; exact ⟨q, hmem, by simp⟩)
          constructor
          · intro x hx
            rcases List.mem_or_eq_of_mem_set hx with h' | h'
            · exact ih.1 x h'
            · subst h'
              exact mkPhone_ok hp
          · exact nodup_set ih.2 hq
      | none =>
        simp only [hfind] at hop
        cases hop
        exact ih
  | addBirthday today r raw r' _ hop ih =>
    rw [Record.add_birthday] at hop
    cases hb : r.birthday with
    | some d => rw [hb] at hop; cases hop
    | none =>
      rw [hb] at hop
      cases hbd : mkBirthday today raw with
      | error e => rw [hbd] at hop; simp [Except.map] at hop
      | ok d =>
        rw [hbd] at hop
        simp only [Except.map, Except.ok.injEq] at hop
        cases hop
        exact ih

/-- Witness for C4 at a concrete record reached by a fresh creation and one
`add_phone`. -/
theorem C4_witness :
    (∀ p ∈ (⟨"John", ["0931234567"], none⟩ : Record).phones, validPhone p) ∧
    (⟨"John", ["0931234567"], none⟩ : Record).phones.Nodup :=
  C4_phone_invariants ⟨"John", ["0931234567"], none⟩
    (RecordReachable.addPhone ⟨"John", [], none⟩ "093 123 45 67" _
      (RecordReachable.fresh "John" _ rfl) rfl)

/-- C1 counterexample: with a single stored phone `0931234567`, editing it
to the same digit string hits a match at index 0 while the new digit string
does NOT occur in any entry other than the matched one, so the claim says
the matched entry is replaced in place (phones unchanged); the code instead
removes it. -/
theorem C1_counterexample :
    Record.edit_phone ⟨"John", ["0931234567"], none⟩ "0931234567" "0931234567" =
      .ok (true, ⟨"John", [], none⟩) ∧
    (⟨"John", [], none⟩ : Record).phones ≠
      (["0931234567"] : List String).set 0 "0931234567" :=
  ⟨rfl, by simp⟩

/-- C1 (amended): `edit_phone` validates the new phone first and fails with
no mutation if invalid; with no match for the old digit string it reports
not-found with no mutation; at the first matching index it removes the
matched entry when the new digit string already occurs anywhere in the
sequence — including at the matched entry itself, as when the old and new
phones normalize to the same digits — and otherwise replaces the matched
entry in place. -/
theorem C1_edit_phone (r : Record) (old new : String) :
    (∀ e, mkPhone new = .error e → r.edit_phone old new = .error e) ∧
    (∀ p, mkPhone new = .ok p →
      ((∀ q ∈ r.phones, q ≠ stripNonDigits old) →
          r.edit_phone old new = .ok (false, r)) ∧
      (∀ i, (hi : i < r.phones.length) →
          r.phones[i] = stripNonDigits old →
          (∀ j, (hj : j < r.phones.length) → j < i →
              r.phones[j] ≠ stripNonDigits old) →
          ((p ∈ r.phones →
              r.edit_phone old new =
                .ok (true, { r with phones := r.phones.eraseIdx i })) ∧
           (p ∉ r.phones →
              r.edit_phone old new =
                .ok (true, { r with phones := r.phones.set i p }))))) := by
  refine ⟨fun e he => ?_, fun p hp => ⟨fun hnone => ?_, fun i hi hieq hjne => ⟨fun hmem => ?_, fun hmem => ?_⟩⟩⟩
  · simp [Record.edit_phone, he, Except.map]
  · have hfind : r.phones.findIdx? (fun q => q = stripNonDigits old) = none := by
      rw [List.findIdx?_eq_none_iff]
      intro x hx
      simp [hnone x hx]
    simp [Record.edit_phone, hp, Except.map, hfind]
  · have hfind : r.phones.findIdx? (fun q => q = stripNonDigits old) = some i := by
      rw [List.findIdx?_eq_some_iff_getElem]
      exact ⟨hi, by simp [hieq], fun j hj => by simp [hjne j (Nat.lt_trans hj hi) hj]⟩
    have hany : r.phones.any (fun x => x = p) = true := by
      rw [List.any_eq_true]
      exact ⟨p, hmem, by simp⟩
    simp [Record.edit_phone, hp, Except.map, hfind, hany]
  · have hfind : r.phones.findIdx? (fun q => q = stripNonDigits old) = some i := by
      rw [List.findIdx?_eq_some_iff_getElem]
      exact ⟨hi, by simp [hieq], fun j hj => by simp [hjne j (Nat.lt_trans hj hi) hj]⟩
    have hany : r.phones.any (fun x => x = p) = false := by
      rw [List.any_eq_false]
      intro x hx
      simp only [decide_eq_true_eq]
      intro hxp
      exact hmem (hxp ▸ hx)
    simp [Record.edit_phone, hp, Except.map, hfind, hany]

/-- Witness for C1: replacing a phone in place at index 0 when the new
digit string is not yet stored. -/
theorem C1_witness :
    Record.edit_phone ⟨"John", ["0931234567", "0501112233"], none⟩
        "093 123 4567" "0671112233" =
      .ok (true, { name := "John",
                   phones := (["0931234567", "0501112233"] : List String).set 0 "0671112233",
                   birthday := none }) :=
  (((C1_edit_phone ⟨"John", ["0931234567", "0501112233"], none⟩
      "093 123 4567" "0671112233").2 "0671112233" rfl).2 0 (by decide) rfl
    (fun j hj hj0 => absurd hj0 (by omega))).2 (by decide)

end ABook

namespace ABook

/-! ### Calendar arithmetic lemmas -/

theorem daysInMonth_pos (y m : Nat) : 28 ≤ daysInMonth y m := by
  rw [daysInMonth]
  split
  · split <;> omega
  · split <;> omega

theorem daysBeforeMonth_succ (y m : Nat) (h : 1 ≤ m) :
    daysBeforeMonth y (m + 1) = daysBeforeMonth y m + daysInMonth y m := by
  match m, h with
  | k + 1, _ => rfl

theorem daysBeforeMonth_12 (y : Nat) :
    daysBeforeMonth y 12 + daysInMonth y 12 =
      365 + (if isLeapYear y then 1 else 0) := by
  cases h : isLeapYear y <;> simp [daysBeforeMonth, daysInMonth, h]

theorem daysBeforeYear_succ (y : Nat) (h : 1 ≤ y) :
    daysBeforeYear (y + 1) =
      daysBeforeYear y + 365 + (if isLeapYear y then 1 else 0) := by
  have hiff : isLeapYear y = true ↔ (y % 4 = 0 ∧ (y % 100 ≠ 0 ∨ y % 400 = 0)) := by
    simp [isLeapYear]
  obtain ⟨a, rfl⟩ : ∃ a, y = a + 1 := ⟨y - 1, by omega⟩
  have e4 : (a + 1) / 4 = a / 4 + (if (a + 1) % 4 = 0 then 1 else 0) := by
    by_cases h4 : (a + 1) % 4 = 0 <;> simp [h4] <;> omega
  have e100 : (a + 1) / 100 = a / 100 + (if (a + 1) % 100 = 0 then 1 else 0) := by
    by_cases h100 : (a + 1) % 100 = 0 <;> simp [h100] <;> omega
  have e400 : (a + 1) / 400 = a / 400 + (if (a + 1) % 400 = 0 then 1 else 0) := by
    by_cases h400 : (a + 1) % 400 = 0 <;> simp [h400] <;> omega
  have hle : a / 100 ≤ 365 * a + a / 4 := le_trans (Nat.div_le_self a 100) (by omega)
  unfold daysBeforeYear
  simp only [Nat.add_sub_cancel]
  rw [e4, e100, e400]
  by_cases hP : (a + 1) % 4 = 0 ∧ ((a + 1) % 100 ≠ 0 ∨ (a + 1) % 400 = 0)
  · rw [if_pos (hiff.mpr hP)]
    have h100400 : (a + 1) % 400 = 0 → (a + 1) % 100 = 0 := by omega
    rcases hP with ⟨h4, h100 | h400⟩
    · simp only [if_pos h4, if_neg h100]
      by_cases h400 : (a + 1) % 400 = 0
      · exact absurd (h100400 h400) h100
      · simp only [if_neg h400]; omega
    · simp only [if_pos h4, if_pos h400, if_pos (h100400 h400)]; omega
  · rw [if_neg (fun ht => hP (hiff.mp ht))]
    by_cases h4 : (a + 1) % 4 = 0
    · have hc : (a + 1) % 100 = 0 ∧ (a + 1) % 400 ≠ 0 := by
        by_cases h100 : (a + 1) % 100 = 0
        · refine ⟨h100, fun h400 => hP ⟨h4, Or.inr h400⟩⟩
        · exact absurd ⟨h4, Or.inl h100⟩ hP
      simp only [if_pos h4, if_pos hc.1, if_neg hc.2]; omega
    · have h100400 : (a + 1) % 400 = 0 → (a + 1) % 100 = 0 := by omega
      have h4' : (a + 1) % 400 = 0 → (a + 1) % 4 = 0 := by omega
      simp only [if_neg h4]
      by_cases h100 : (a + 1) % 100 = 0
      · simp only [if_pos h100, if_neg (fun h400 => h4 (h4' h400))]; omega
      · simp only [if_neg h100, if_neg (fun h400 => h4 (h4' h400))]; omega

theorem toOrdinal_nextDay (dt : Date) (h : dateOK dt) :
    toOrdinal (nextDay dt) = toOrdinal dt + 1 := by
  obtain ⟨y, m, d⟩ := dt
  obtain ⟨hy, hm1, hm2, hd1, hd2⟩ := h
  simp only at hy hm1 hm2 hd1 hd2
  rw [nextDay]
  by_cases h1 : d < daysInMonth y m
  · rw [if_pos h1]
    show daysBeforeYear y + daysBeforeMonth y m + (d + 1) =
      daysBeforeYear y + daysBeforeMonth y m + d + 1
    omega
  · rw [if_neg h1]
    have hd : d = daysInMonth y m := by omega
    by_cases h2 : m < 12
    · rw [if_pos h2]
      show daysBeforeYear y + daysBeforeMonth y (m + 1) + 1 =
        daysBeforeYear y + daysBeforeMonth y m + d + 1
      rw [daysBeforeMonth_succ y m hm1]
      omega
    · rw [if_neg h2]
      have hm : m = 12 := by omega
      subst hm
      show daysBeforeYear (y + 1) + daysBeforeMonth (y + 1) 1 + 1 =
        daysBeforeYear y + daysBeforeMonth y 12 + d + 1
      rw [daysBeforeYear_succ y hy]
      have h12 := daysBeforeMonth_12 y
      have hb1 : daysBeforeMonth (y + 1) 1 = 0 := rfl
      cases hL : isLeapYear y <;> simp only [hL] at h12 ⊢ <;> omega

theorem nextDay_dateOK (dt : Date) (h : dateOK dt) : dateOK (nextDay dt) := by
  obtain ⟨y, m, d⟩ := dt
  obtain ⟨hy, hm1, hm2, hd1, hd2⟩ := h
  simp only at hy hm1 hm2 hd1 hd2
  rw [nextDay]
  by_cases h1 : d < daysInMonth y m
  · rw [if_pos h1]
    simp only [dateOK]
    exact ⟨hy, hm1, hm2, by omega, by omega⟩
  · rw [if_neg h1]
    by_cases h2 : m < 12
    · rw [if_pos h2]
      simp only [dateOK]
      exact ⟨hy, by omega, by omega, by omega,
        le_trans (by omega) (daysInMonth_pos y (m + 1))⟩
    · rw [if_neg h2]
      simp only [dateOK]
      exact ⟨by omega, by omega, by omega, by omega,
        le_trans (by omega) (daysInMonth_pos (y + 1) 1)⟩

theorem toOrdinal_addDays (n : Nat) (dt : Date) (h : dateOK dt) :
    toOrdinal (addDays dt n) = toOrdinal dt + n ∧ dateOK (addDays dt n) := by
  induction n generalizing dt with
  | zero => exact ⟨rfl, h⟩
  | succ k ih =>
    rw [addDays]
    obtain ⟨ho, hok⟩ := ih (nextDay dt) (nextDay_dateOK dt h)
    rw [ho, toOrdinal_nextDay dt h] at *
    exact ⟨by omega, hok⟩

theorem shiftWeekend_weekday (d : Date) (h : dateOK d) :
    (shiftWeekend d).weekday < 5 ∧
      (5 ≤ d.weekday → (shiftWeekend d).weekday = 0) := by
  rw [shiftWeekend]
  by_cases hw : 5 ≤ d.weekday
  · rw [if_pos hw]
    have hw7 : d.weekday < 7 := Nat.mod_lt _ (by norm_num)
    have key : toOrdinal (addDays d (7 - d.weekday)) =
        toOrdinal d + (7 - d.weekday) := (toOrdinal_addDays (7 - d.weekday) d h).1
    have hwd : d.weekday = (toOrdinal d + 6) % 7 := rfl
    constructor
    · show (toOrdinal (addDays d (7 - d.weekday)) + 6) % 7 < 5
      rw [key]
      rw [hwd] at hw hw7 ⊢
      omega
    · intro h5
      show (toOrdinal (addDays d (7 - d.weekday)) + 6) % 7 = 0
      rw [key]
      rw [hwd] at hw hw7 ⊢
      omega
  · rw [if_neg hw]
    have hw7 : d.weekday < 7 := Nat.mod_lt _ (by norm_num)
    exact ⟨by omega, fun h5 => absurd h5 hw⟩

theorem mkDate_some {y m d : Nat} {dt : Date} (h : mkDate y m d = some dt) :
    dt = ⟨y, m, d⟩ ∧ validDate y m d = true := by
  rw [mkDate] at h
  split at h
  · cases h; exact ⟨rfl, by assumption⟩
  · cases h

theorem validDate_fields {y m d : Nat} (h : validDate y m d = true) :
    1 ≤ y ∧ y ≤ 9999 ∧ 1 ≤ m ∧ m ≤ 12 ∧ 1 ≤ d ∧ d ≤ daysInMonth y m := by
  simpa [validDate, and_assoc] using h

theorem validDate_dateOK {y m d : Nat} (h : validDate y m d = true) :
    dateOK ⟨y, m, d⟩ := by
  obtain ⟨h1, _, h3, h4, h5, h6⟩ := validDate_fields h
  exact ⟨h1, h3, h4, h5, h6⟩

end ABook

namespace ABook

/-! ### Upcoming-birthdays query lemmas -/

theorem upcoming_char (today : Date) (r : Record) (b : Date)
    (hb : r.birthday = some b) (o : Option UBEntry)
    (h : upcomingForRecord today r = some o) :
    validDate today.year b.month b.day = true ∧
    ∃ occ : Date,
      occ = (if dateLt ⟨today.year, b.month, b.day⟩ today
             then (⟨today.year + 1, b.month, b.day⟩ : Date)
             else ⟨today.year, b.month, b.day⟩) ∧
      dateOK occ ∧
      o = (if 0 ≤ dateSub occ today ∧ dateSub occ today < 7
           then some ⟨r.name, shiftWeekend occ⟩ else none) := by
  simp only [upcomingForRecord, hb] at h
  cases hc0 : mkDate today.year b.month b.day with
  | none => rw [hc0] at h; cases h
  | some c0 =>
    simp only [hc0] at h
    obtain ⟨hc0eq, hval⟩ := mkDate_some hc0
    subst hc0eq
    refine ⟨hval, ?_⟩
    by_cases hlt : dateLt ⟨today.year, b.month, b.day⟩ today = true
    · rw [if_pos hlt] at h
      cases hc1 : mkDate (today.year + 1) b.month b.day with
      | none => rw [hc1] at h; cases h
      | some cand =>
        simp only [hc1] at h
        obtain ⟨hceq, hval1⟩ := mkDate_some hc1
        subst hceq
        refine ⟨⟨today.year + 1, b.month, b.day⟩, by rw [if_pos hlt],
          validDate_dateOK hval1, ?_⟩
        by_cases hwin : 0 ≤ dateSub ⟨today.year + 1, b.month, b.day⟩ today ∧
            dateSub ⟨today.year + 1, b.month, b.day⟩ today < 7
        · rw [if_pos hwin] at h
          cases h
          rw [if_pos hwin]
        · rw [if_neg hwin] at h
          cases h
          rw [if_neg hwin]
    · simp only [if_neg hlt] at h
      refine ⟨⟨today.year, b.month, b.day⟩, by rw [if_neg hlt],
        validDate_dateOK hval, ?_⟩
      by_cases hwin : 0 ≤ dateSub ⟨today.year, b.month, b.day⟩ today ∧
          dateSub ⟨today.year, b.month, b.day⟩ today < 7
      · rw [if_pos hwin] at h
        cases h
        rw [if_pos hwin]
      · rw [if_neg hwin] at h
        cases h
        rw [if_neg hwin]

theorem mem_collectUpcoming (today : Date) (book : List (String × Record)) :
    ∀ (l : List UBEntry), collectUpcoming today book = some l →
      ∀ (e : UBEntry),
        (e ∈ l ↔ ∃ p ∈ book, upcomingForRecord today p.2 = some (some e)) := by
  induction book with
  | nil =>
    intro l hl e
    simp only [collectUpcoming] at hl
    cases hl
    simp
  | cons q rest ih =>
    intro l hl e
    obtain ⟨k, r⟩ := q
    simp only [collectUpcoming] at hl
    cases hu : upcomingForRecord today r with
    | none => rw [hu] at hl; cases hl
    | some o =>
      rw [hu] at hl
      cases hc : collectUpcoming today rest with
      | none => rw [hc] at hl; cases hl
      | some l' =>
        rw [hc] at hl
        cases hl
        constructor
        · intro he
          rcases List.mem_append.mp he with he | he
          · cases o with
            | none => simp [Option.toList] at he
            | some x =>
              simp only [Option.toList] at he
              rw [List.mem_singleton] at he
              subst he
              exact ⟨(k, r), List.mem_cons_self _ _, hu⟩
          · obtain ⟨p, hp, hpe⟩ := (ih l' hc e).mp he
            exact ⟨p, List.mem_cons_of_mem _ hp, hpe⟩
        · rintro ⟨p, hp, hpe⟩
          rcases List.mem_cons.mp hp with hp | hp
          · subst hp
            rw [hu] at hpe
            cases hpe
            exact List.mem_append.mpr (Or.inl (by simp [Option.toList]))
          · exact List.mem_append.mpr (Or.inr ((ih l' hc e).mpr ⟨p, hp, hpe⟩))

theorem collect_success (today : Date) (book : List (String × Record)) :
    ∀ (l : List UBEntry), collectUpcoming today book = some l →
      ∀ p ∈ book, upcomingForRecord today p.2 ≠ none := by
  induction book with
  | nil => intro l _ p hp; simp at hp
  | cons q rest ih =>
    intro l hc p hp
    obtain ⟨k, r⟩ := q
    simp only [collectUpcoming] at hc
    cases hu : upcomingForRecord today r with
    | none => rw [hu] at hc; cases hc
    | some o =>
      rw [hu] at hc
      cases hcr : collectUpcoming today rest with
      | none => rw [hcr] at hc; cases hc
      | some l' =>
        rcases List.mem_cons.mp hp with hp | hp
        · subst hp; simp [hu]
        · exact ih l' hcr p hp

theorem assoc_nodup_eq {book : List (String × Record)} {k : String} {a b : Record}
    (hnd : (book.map Prod.fst).Nodup) (ha : (k, a) ∈ book) (hb : (k, b) ∈ book) :
    a = b := by
  induction book with
  | nil => simp at ha
  | cons q rest ih =>
    obtain ⟨k', v'⟩ := q
    rw [List.map_cons, List.nodup_cons] at hnd
    rcases List.mem_cons.mp ha with ha' | ha'
    · rcases List.mem_cons.mp hb with hb' | hb'
      · rw [← ha'] at hb'
        injection hb' with h1 h2
        exact h2.symm
      · injection ha' with h1 h2
        subst h1
        exact absurd (List.mem_map_of_mem Prod.fst hb') hnd.1
    · rcases List.mem_cons.mp hb with hb' | hb'
      · injection hb' with h1 h2
        subst h1
        exact absurd (List.mem_map_of_mem Prod.fst ha') hnd.1
      · exact ih hnd.2 ha' hb'

/-- C10: every congratulation date returned by the upcoming-birthdays query
falls on Monday..Friday (weekday < 5); never on Saturday or Sunday. -/
theorem C10_weekday (today : Date) (book : List (String × Record))
    (out : List UBEntry) (h : get_upcoming_birthdays today book = some out) :
    ∀ e ∈ out, e.congratulation_date.weekday < 5 := by
  intro e he
  rw [get_upcoming_birthdays] at h
  cases hc : collectUpcoming today book with
  | none => rw [hc] at h; cases h
  | some l =>
    rw [hc] at h
    simp only [Option.map] at h
    cases h
    rw [List.mem_insertionSort] at he
    obtain ⟨p, hp, hpe⟩ := (mem_collectUpcoming today book l hc e).mp he
    cases hbd : p.2.birthday with
    | none => simp [upcomingForRecord, hbd] at hpe
    | some b =>
      obtain ⟨hval, occ, hocc, hok, ho⟩ := upcoming_char today p.2 b hbd _ hpe
      by_cases hwin : 0 ≤ dateSub occ today ∧ dateSub occ today < 7
      · rw [if_pos hwin] at ho
        cases ho
        exact (shiftWeekend_weekday occ hok).1
      · rw [if_neg hwin] at ho
        cases ho

/-- Witness for C10 at a concrete store whose only birthday occurrence is a
Sunday (June 16, 2024), shifted to Monday June 17. -/
theorem C10_witness :
    (⟨"Ann", ⟨2024, 6, 17⟩⟩ : UBEntry).congratulation_date.weekday < 5 :=
  C10_weekday ⟨2024, 6, 10⟩ [("Ann", ⟨"Ann", [], some ⟨2000, 6, 16⟩⟩)]
    [⟨"Ann", ⟨2024, 6, 17⟩⟩] rfl ⟨"Ann", ⟨2024, 6, 17⟩⟩
    (List.mem_singleton.mpr rfl)

end ABook

namespace ABook

/-- C2: a record with a birthday appears in the upcoming-birthdays result
exactly when its occurrence (this year's month/day, recomputed with next
year when strictly before today) satisfies `0 ≤ occurrence − today < 7`;
in particular a birthday falling on today is included and one exactly
7 days out is excluded. -/
theorem C2_window (today : Date) (book : List (String × Record)) (k : String)
    (r : Record) (b : Date) (out : List UBEntry)
    (hmem : (k, r) ∈ book)
    (hkeys : ∀ p ∈ book, p.1 = p.2.name)
    (hnodup : (book.map Prod.fst).Nodup)
    (hb : r.birthday = some b)
    (hq : get_upcoming_birthdays today book = some out) :
    ((∃ e ∈ out, e.name = r.name) ↔
      0 ≤ dateSub (if dateLt ⟨today.year, b.month, b.day⟩ today
                   then (⟨today.year + 1, b.month, b.day⟩ : Date)
                   else ⟨today.year, b.month, b.day⟩) today ∧
      dateSub (if dateLt ⟨today.year, b.month, b.day⟩ today
               then (⟨today.year + 1, b.month, b.day⟩ : Date)
               else ⟨today.year, b.month, b.day⟩) today < 7) := by
  rw [get_upcoming_birthdays] at hq
  cases hc : collectUpcoming today book with
  | none => rw [hc] at hq; cases hq
  | some l =>
    rw [hc] at hq
    simp only [Option.map] at hq
    cases hq
    constructor
    · rintro ⟨e, he, hename⟩
      rw [List.mem_insertionSort] at he
      obtain ⟨p, hp, hpe⟩ := (mem_collectUpcoming today book l hc e).mp he
      cases hbd : p.2.birthday with
      | none => simp [upcomingForRecord, hbd] at hpe
      | some b' =>
        obtain ⟨hval', occ', hocc', hok', ho'⟩ :=
          upcoming_char today p.2 b' hbd _ hpe
        by_cases hwin' : 0 ≤ dateSub occ' today ∧ dateSub occ' today < 7
        · rw [if_pos hwin'] at ho'
          cases ho'
          have hp1 : p.1 = p.2.name := hkeys p hp
          have hk : k = r.name := hkeys (k, r) hmem
          have hname' : p.2.name = r.name := hename
          have hpk : (k, p.2) ∈ book := by
            have : p.1 = k := by rw [hp1, hname', hk]
            rwa [← this]
          have hpr : p.2 = r := assoc_nodup_eq hnodup hpk hmem
          rw [hpr] at hbd
          rw [hb] at hbd
          cases hbd
          rw [hocc'] at hwin'
          exact hwin'
        · rw [if_neg hwin'] at ho'
          cases ho'
    · intro hwin
      have hne := collect_success today book l hc (k, r) hmem
      cases hu : upcomingForRecord today r with
      | none => exact absurd hu hne
      | some o =>
        obtain ⟨hval, occ', hocc', hok', ho⟩ := upcoming_char today r b hb o hu
        rw [← hocc'] at hwin
        rw [if_pos hwin] at ho
        subst ho
        refine ⟨⟨r.name, shiftWeekend occ'⟩, ?_, rfl⟩
        rw [List.mem_insertionSort]
        exact (mem_collectUpcoming today book l hc _).mpr ⟨(k, r), hmem, hu⟩

/-- Witness for C2: with today = 2024-06-10 and a birthday on June 10, the
record appears (delta = 0 is inside the half-open window). -/
theorem C2_witness :
    ((∃ e ∈ [(⟨"T", ⟨2024, 6, 10⟩⟩ : UBEntry)], e.name = "T") ↔
      0 ≤ dateSub (if dateLt ⟨2024, 6, 10⟩ ⟨2024, 6, 10⟩
                   then (⟨2025, 6, 10⟩ : Date) else ⟨2024, 6, 10⟩) ⟨2024, 6, 10⟩ ∧
      dateSub (if dateLt ⟨2024, 6, 10⟩ ⟨2024, 6, 10⟩
               then (⟨2025, 6, 10⟩ : Date) else ⟨2024, 6, 10⟩) ⟨2024, 6, 10⟩ < 7) :=
  C2_window ⟨2024, 6, 10⟩ [("T", ⟨"T", [], some ⟨2000, 6, 10⟩⟩)] "T"
    ⟨"T", [], some ⟨2000, 6, 10⟩⟩ ⟨2000, 6, 10⟩ [⟨"T", ⟨2024, 6, 10⟩⟩]
    (List.mem_singleton.mpr rfl) (by simp) (by simp) rfl rfl

/-- C3: for a qualifying record, the reported congratulation date is the
occurrence shifted by +2 days when the occurrence falls on Saturday
(weekday 5) and by +1 day when it falls on Sunday (weekday 6), both landing
on a Monday, and unshifted otherwise; membership itself is decided by the
7-day window on the unshifted occurrence. -/
theorem C3_weekend_shift (today : Date) (book : List (String × Record))
    (k : String) (r : Record) (b : Date) (out : List UBEntry)
    (hmem : (k, r) ∈ book)
    (hkeys : ∀ p ∈ book, p.1 = p.2.name)
    (hnodup : (book.map Prod.fst).Nodup)
    (hb : r.birthday = some b)
    (hq : get_upcoming_birthdays today book = some out) :
    (∀ e ∈ out, e.name = r.name →
      e.congratulation_date =
        (if (if dateLt ⟨today.year, b.month, b.day⟩ today
             then (⟨today.year + 1, b.month, b.day⟩ : Date)
             else ⟨today.year, b.month, b.day⟩).weekday = 5
         then addDays (if dateLt ⟨today.year, b.month, b.day⟩ today
                       then (⟨today.year + 1, b.month, b.day⟩ : Date)
                       else ⟨today.year, b.month, b.day⟩) 2
         else if (if dateLt ⟨today.year, b.month, b.day⟩ today
                  then (⟨today.year + 1, b.month, b.day⟩ : Date)
                  else ⟨today.year, b.month, b.day⟩).weekday = 6
         then addDays (if dateLt ⟨today.year, b.month, b.day⟩ today
                       then (⟨today.year + 1, b.month, b.day⟩ : Date)
                       else ⟨today.year, b.month, b.day⟩) 1
         else (if dateLt ⟨today.year, b.month, b.day⟩ today
               then (⟨today.year + 1, b.month, b.day⟩ : Date)
               else ⟨today.year, b.month, b.day⟩)) ∧
      e.congratulation_date.weekday < 5) ∧
    ((∃ e ∈ out, e.name = r.name) ↔
      0 ≤ dateSub (if dateLt ⟨today.year, b.month, b.day⟩ today
                   then (⟨today.year + 1, b.month, b.day⟩ : Date)
                   else ⟨today.year, b.month, b.day⟩) today ∧
      dateSub (if dateLt ⟨today.year, b.month, b.day⟩ today
               then (⟨today.year + 1, b.month, b.day⟩ : Date)
               else ⟨today.year, b.month, b.day⟩) today < 7) := by
  refine ⟨?_, C2_window today book k r b out hmem hkeys hnodup hb hq⟩
  intro e he hename
  rw [get_upcoming_birthdays] at hq
  cases hc : collectUpcoming today book with
  | none => rw [hc] at hq; cases hq
  | some l =>
    rw [hc] at hq
    simp only [Option.map] at hq
    cases hq
    rw [List.mem_insertionSort] at he
    obtain ⟨p, hp, hpe⟩ := (mem_collectUpcoming today book l hc e).mp he
    cases hbd : p.2.birthday with
    | none => simp [upcomingForRecord, hbd] at hpe
    | some b' =>
      obtain ⟨hval', occ', hocc', hok', ho'⟩ :=
        upcoming_char today p.2 b' hbd _ hpe
      by_cases hwin' : 0 ≤ dateSub occ' today ∧ dateSub occ' today < 7
      · rw [if_pos hwin'] at ho'
        cases ho'
        have hp1 : p.1 = p.2.name := hkeys p hp
        have hk : k = r.name := hkeys (k, r) hmem
        have hname' : p.2.name = r.name := hename
        have hpk : (k, p.2) ∈ book := by
          have : p.1 = k := by rw [hp1, hname', hk]
          rwa [← this]
        have hpr : p.2 = r := assoc_nodup_eq hnodup hpk hmem
        rw [hpr] at hbd
        rw [hb] at hbd
        cases hbd
        rw [← hocc']
        have hw7 : occ'.weekday < 7 := Nat.mod_lt _ (by norm_num)
        constructor
        · show shiftWeekend occ' = _
          rw [shiftWeekend]
          by_cases h5 : occ'.weekday = 5
          · rw [if_pos (by omega), if_pos h5, h5]
          · by_cases h6 : occ'.weekday = 6
            · rw [if_pos (by omega), if_neg h5, if_pos h6, h6]
            · rw [if_neg (by omega), if_neg h5, if_neg h6]
        · show (shiftWeekend occ').weekday < 5
          exact (shiftWeekend_weekday occ' hok').1
      · rw [if_neg hwin'] at ho'
        cases ho'

/-- Witness for C3: today = 2024-06-10 (a Monday), birthday June 16
(a Sunday): the reported congratulation date is June 17, the Monday. -/
theorem C3_witness :
    (∀ e ∈ [(⟨"Ann", ⟨2024, 6, 17⟩⟩ : UBEntry)], e.name = "Ann" →
      e.congratulation_date =
        (if (if dateLt ⟨2024, 6, 16⟩ ⟨2024, 6, 10⟩
             then (⟨2025, 6, 16⟩ : Date) else ⟨2024, 6, 16⟩).weekday = 5
         then addDays (if dateLt ⟨2024, 6, 16⟩ ⟨2024, 6, 10⟩
                       then (⟨2025, 6, 16⟩ : Date) else ⟨2024, 6, 16⟩) 2
         else if (if dateLt ⟨2024, 6, 16⟩ ⟨2024, 6, 10⟩
                  then (⟨2025, 6, 16⟩ : Date) else ⟨2024, 6, 16⟩).weekday = 6
         then addDays (if dateLt ⟨2024, 6, 16⟩ ⟨2024, 6, 10⟩
                       then (⟨2025, 6, 16⟩ : Date) else ⟨2024, 6, 16⟩) 1
         else (if dateLt ⟨2024, 6, 16⟩ ⟨2024, 6, 10⟩
               then (⟨2025, 6, 16⟩ : Date) else ⟨2024, 6, 16⟩)) ∧
      e.congratulation_date.weekday < 5) ∧
    ((∃ e ∈ [(⟨"Ann", ⟨2024, 6, 17⟩⟩ : UBEntry)], e.name = "Ann") ↔
      0 ≤ dateSub (if dateLt ⟨2024, 6, 16⟩ ⟨2024, 6, 10⟩
                   then (⟨2025, 6, 16⟩ : Date) else ⟨2024, 6, 16⟩) ⟨2024, 6, 10⟩ ∧
      dateSub (if dateLt ⟨2024, 6, 16⟩ ⟨2024, 6, 10⟩
               then (⟨2025, 6, 16⟩ : Date) else ⟨2024, 6, 16⟩) ⟨2024, 6, 10⟩ < 7) :=
  C3_weekend_shift ⟨2024, 6, 10⟩ [("Ann", ⟨"Ann", [], some ⟨2000, 6, 16⟩⟩)] "Ann"
    ⟨"Ann", [], some ⟨2000, 6, 16⟩⟩ ⟨2000, 6, 16⟩ [⟨"Ann", ⟨2024, 6, 17⟩⟩]
    (List.mem_singleton.mpr rfl) (by simp) (by simp) rfl rfl

end ABook

namespace ABook

theorem dateLE_refl (d : Date) : dateLE d d = true := by
  simp [dateLE]

/-- C9: the pre-sort result list follows the store's insertion order, the
final sort is stable and keyed only on the congratulation date, so two
qualifying entries with equal congratulation dates keep their insertion
order in the output; the output is the deterministic image of the store and
the evaluation date. -/
theorem C9_stable_order (today : Date) (book : List (String × Record))
    (c : List UBEntry) (e1 e2 : UBEntry)
    (hc : collectUpcoming today book = some c)
    (hsub : List.Sublist [e1, e2] c)
    (heq : e1.congratulation_date = e2.congratulation_date) :
    get_upcoming_birthdays today book = some (c.insertionSort ubRel) ∧
    List.Sublist [e1, e2] (c.insertionSort ubRel) := by
  refine ⟨by rw [get_upcoming_birthdays, hc]; rfl, ?_⟩
  refine List.pair_sublist_insertionSort ?_ hsub
  rw [ubRel, ubLE, heq]
  exact dateLE_refl _

/-- Witness for C9: two records with the same congratulation date
(June 12, 2024) stay in insertion order (Ann before Bob) in the output. -/
theorem C9_witness :
    get_upcoming_birthdays ⟨2024, 6, 10⟩
        [("Ann", ⟨"Ann", [], some ⟨2000, 6, 12⟩⟩),
         ("Bob", ⟨"Bob", [], some ⟨1999, 6, 12⟩⟩)] =
      some (([⟨"Ann", ⟨2024, 6, 12⟩⟩, ⟨"Bob", ⟨2024, 6, 12⟩⟩] :
        List UBEntry).insertionSort ubRel) ∧
    List.Sublist [(⟨"Ann", ⟨2024, 6, 12⟩⟩ : UBEntry), ⟨"Bob", ⟨2024, 6, 12⟩⟩]
      (([⟨"Ann", ⟨2024, 6, 12⟩⟩, ⟨"Bob", ⟨2024, 6, 12⟩⟩] :
        List UBEntry).insertionSort ubRel) :=
  C9_stable_order ⟨2024, 6, 10⟩
    [("Ann", ⟨"Ann", [], some ⟨2000, 6, 12⟩⟩),
     ("Bob", ⟨"Bob", [], some ⟨1999, 6, 12⟩⟩)]
    [⟨"Ann", ⟨2024, 6, 12⟩⟩, ⟨"Bob", ⟨2024, 6, 12⟩⟩]
    ⟨"Ann", ⟨2024, 6, 12⟩⟩ ⟨"Bob", ⟨2024, 6, 12⟩⟩
    rfl (List.Sublist.refl _) rfl

end ABook


namespace ABook

/-! ### strptime / strftime round-trip lemmas -/

theorem digitChar_props (k : Nat) (h : k < 10) :
    isDigitChar (Nat.digitChar k) = true ∧
    (Nat.digitChar k).toNat - '0'.toNat = k ∧
    Char.isWhitespace (Nat.digitChar k) = false ∧
    Nat.digitChar k ≠ '.' ∧ Nat.digitChar k ≠ ' ' := by
  interval_cases k <;> refine ⟨by decide, by decide, by decide, by decide, by decide⟩

theorem dropWhile_eq_self {p : Char → Bool} {cs : List Char}
    (h : ∀ c ∈ cs, p c = false) : cs.dropWhile p = cs := by
  cases cs with
  | nil => rfl
  | cons c rest =>
    simp [List.dropWhile_cons, h c (List.mem_cons_self c rest)]

theorem stripChars_eq_self {cs : List Char}
    (h : ∀ c ∈ cs, Char.isWhitespace c = false) : stripChars cs = cs := by
  rw [stripChars, dropWhile_eq_self h,
    dropWhile_eq_self (fun c hc => h c (List.mem_reverse.mp hc)),
    List.reverse_reverse]

theorem splitDots_append (a rest : List Char) (h : ∀ c ∈ a, c ≠ '.') :
    splitDots (a ++ '.' :: rest) = a :: splitDots rest := by
  induction a with
  | nil => simp [splitDots]
  | cons c a ih =>
    have hc : c ≠ '.' := h c (List.mem_cons_self _ _)
    simp only [List.cons_append, splitDots, List.append_eq, if_neg hc,
      ih (fun x hx => h x (List.mem_cons_of_mem _ hx))]

theorem splitDots_single (a : List Char) (h : ∀ c ∈ a, c ≠ '.') :
    splitDots a = [a] := by
  induction a with
  | nil => rfl
  | cons c a ih =>
    have hc : c ≠ '.' := h c (List.mem_cons_self _ _)
    simp only [splitDots, if_neg hc,
      ih (fun x hx => h x (List.mem_cons_of_mem _ hx))]

theorem digitsVal?_pad2 (n : Nat) (h : n < 100) :
    digitsVal? (pad2Chars n) = some n := by
  obtain ⟨ha1, ha2, _, _, _⟩ := digitChar_props (n / 10 % 10) (Nat.mod_lt _ (by norm_num))
  obtain ⟨hb1, hb2, _, _, _⟩ := digitChar_props (n % 10) (Nat.mod_lt _ (by norm_num))
  rw [pad2Chars, digitsVal?]
  rw [if_neg (by simp [ha1, hb1])]
  simp only [List.foldl_cons, List.foldl_nil, Option.some.injEq]
  rw [ha2, hb2]
  omega

theorem digitsVal?_pad4 (n : Nat) (h : n < 10000) :
    digitsVal? (pad4Chars n) = some n := by
  obtain ⟨ha1, ha2, _, _, _⟩ := digitChar_props (n / 1000 % 10) (Nat.mod_lt _ (by norm_num))
  obtain ⟨hb1, hb2, _, _, _⟩ := digitChar_props (n / 100 % 10) (Nat.mod_lt _ (by norm_num))
  obtain ⟨hc1, hc2, _, _, _⟩ := digitChar_props (n / 10 % 10) (Nat.mod_lt _ (by norm_num))
  obtain ⟨hd1, hd2, _, _, _⟩ := digitChar_props (n % 10) (Nat.mod_lt _ (by norm_num))
  rw [pad4Chars, digitsVal?]
  rw [if_neg (by simp [ha1, hb1, hc1, hd1])]
  simp only [List.foldl_cons, List.foldl_nil, Option.some.injEq]
  rw [ha2, hb2, hc2, hd2]
  omega

theorem parseDayField_pad2 (n : Nat) (h : n < 100) :
    parseDayField (pad2Chars n) = if 1 ≤ n ∧ n ≤ 31 then some n else none := by
  obtain ⟨_, _, _, _, hsp⟩ := digitChar_props (n / 10 % 10) (Nat.mod_lt _ (by norm_num))
  have hadj : spacePadAdjust (pad2Chars n) = pad2Chars n := by
    simp only [pad2Chars, spacePadAdjust, if_neg hsp]
  simp only [parseDayField, hadj, digitsVal?_pad2 n h]
  by_cases hc : 1 ≤ n ∧ n ≤ 31
  · rw [if_pos hc, if_pos (by simp [pad2Chars, hc.1, hc.2])]
  · rw [if_neg hc, if_neg ?_]
    simp only [pad2Chars, List.length_cons, List.length_nil, Bool.and_eq_true,
      decide_eq_true_eq]
    omega

theorem parseMonthField_pad2 (n : Nat) (h : n < 100) :
    parseMonthField (pad2Chars n) = if 1 ≤ n ∧ n ≤ 12 then some n else none := by
  simp only [parseMonthField, digitsVal?_pad2 n h]
  by_cases hc : 1 ≤ n ∧ n ≤ 12
  · rw [if_pos hc, if_pos (by simp [pad2Chars, hc.1, hc.2])]
  · rw [if_neg hc, if_neg ?_]
    simp only [pad2Chars, List.length_cons, List.length_nil, Bool.and_eq_true,
      decide_eq_true_eq]
    omega

theorem parseYearField_pad4 (n : Nat) (h : n < 10000) :
    parseYearField (pad4Chars n) = some n := by
  simp only [parseYearField, digitsVal?_pad4 n h]
  rw [if_pos (by simp [pad4Chars])]

theorem parseDMY_canonical (dd mm yyyy : Nat) (hdd : dd < 100) (hmm : mm < 100)
    (hyyyy : yyyy < 10000) :
    parseDMYChars (dmyChars dd mm yyyy) =
      if 1 ≤ dd ∧ dd ≤ 31 ∧ 1 ≤ mm ∧ mm ≤ 12 then mkDate yyyy mm dd else none := by
  have hnd2 : ∀ (j : Nat), ∀ c ∈ pad2Chars j, c ≠ '.' := by
    intro j c hc
    simp only [pad2Chars, List.mem_cons, List.not_mem_nil, or_false] at hc
    rcases hc with rfl | rfl
    · exact (digitChar_props (j / 10 % 10) (Nat.mod_lt _ (by norm_num))).2.2.2.1
    · exact (digitChar_props (j % 10) (Nat.mod_lt _ (by norm_num))).2.2.2.1
  have hnd4 : ∀ c ∈ pad4Chars yyyy, c ≠ '.' := by
    intro c hc
    simp only [pad4Chars, List.mem_cons, List.not_mem_nil, or_false] at hc
    rcases hc with rfl | rfl | rfl | rfl
    · exact (digitChar_props (yyyy / 1000 % 10) (Nat.mod_lt _ (by norm_num))).2.2.2.1
    · exact (digitChar_props (yyyy / 100 % 10) (Nat.mod_lt _ (by norm_num))).2.2.2.1
    · exact (digitChar_props (yyyy / 10 % 10) (Nat.mod_lt _ (by norm_num))).2.2.2.1
    · exact (digitChar_props (yyyy % 10) (Nat.mod_lt _ (by norm_num))).2.2.2.1
  have hsplit : splitDots (dmyChars dd mm yyyy) =
      [pad2Chars dd, pad2Chars mm, pad4Chars yyyy] := by
    show splitDots
      (pad2Chars dd ++ '.' :: (pad2Chars mm ++ '.' :: pad4Chars yyyy)) = _
    rw [splitDots_append _ _ (hnd2 dd), splitDots_append _ _ (hnd2 mm),
      splitDots_single _ hnd4]
  simp only [parseDMYChars, hsplit, parseDayField_pad2 dd hdd,
    parseMonthField_pad2 mm hmm, parseYearField_pad4 yyyy hyyyy]
  by_cases hd : 1 ≤ dd ∧ dd ≤ 31
  · rw [if_pos hd]
    by_cases hm : 1 ≤ mm ∧ mm ≤ 12
    · rw [if_pos hm, if_pos ⟨hd.1, hd.2, hm.1, hm.2⟩]
    · rw [if_neg hm, if_neg (fun hx => hm ⟨hx.2.2.1, hx.2.2.2⟩)]
  · rw [if_neg (fun hx : 1 ≤ dd ∧ dd ≤ 31 ∧ 1 ≤ mm ∧ mm ≤ 12 =>
        hd ⟨hx.1, hx.2.1⟩), if_neg hd]

/-- C8: parsing a canonical `DD.MM.YYYY` string into a (non-future)
Birthday and rendering it back reproduces the string exactly; every
canonical `DD.MM.YYYY` string is `String.mk (dmyChars dd mm yyyy)` for its
numeric components. -/
theorem C8_roundtrip (today : Date) (dd mm yyyy : Nat) (d : Date)
    (hdd : dd < 100) (hmm : mm < 100) (hyyyy : yyyy < 10000)
    (h : mkBirthday today (String.mk (dmyChars dd mm yyyy)) = .ok d) :
    renderDate d = String.mk (dmyChars dd mm yyyy) := by
  have hdigitws : ∀ j : Nat, Char.isWhitespace (Nat.digitChar (j % 10)) = false :=
    fun j => (digitChar_props (j % 10) (Nat.mod_lt _ (by norm_num))).2.2.1
  have hnws : ∀ c ∈ dmyChars dd mm yyyy, Char.isWhitespace c = false := by
    intro c hc
    simp only [dmyChars, pad2Chars, pad4Chars, List.mem_append, List.mem_cons,
      List.not_mem_nil, or_false] at hc
    rcases hc with (rfl | rfl) | rfl | (rfl | rfl) | rfl | rfl | rfl | rfl | rfl
    all_goals first | exact hdigitws _ | decide
  have hpb : parseBirthday (String.mk (dmyChars dd mm yyyy)) =
      parseDMYChars (dmyChars dd mm yyyy) := by
    rw [parseBirthday]
    show parseDMYChars (stripChars (dmyChars dd mm yyyy)) = _
    rw [stripChars_eq_self hnws]
  rw [mkBirthday, hpb, parseDMY_canonical dd mm yyyy hdd hmm hyyyy] at h
  by_cases hc : 1 ≤ dd ∧ dd ≤ 31 ∧ 1 ≤ mm ∧ mm ≤ 12
  · rw [if_pos hc] at h
    cases hmk : mkDate yyyy mm dd with
    | none => rw [hmk] at h; cases h
    | some d0 =>
      obtain ⟨hd0, hval⟩ := mkDate_some hmk
      subst hd0
      simp only [hmk] at h
      split at h
      · cases h
      · cases h
        rfl
  · rw [if_neg hc] at h
    cases h

/-- Witness for C8: `render(parse("15.08.1992")) = "15.08.1992"`. -/
theorem C8_witness :
    renderDate ⟨1992, 8, 15⟩ = String.mk (dmyChars 15 8 1992) :=
  C8_roundtrip ⟨2024, 6, 10⟩ 15 8 1992 ⟨1992, 8, 15⟩ (by decide) (by decide)
    (by decide) rfl

end ABook
